import Mathlib

/-!
# stock-go-app: analyzer and ingester

Shallow embedding of `analyzer-service/main.go` (`processMessage` and the
message loop of `main`) and of the tick construction in
`ingester-service/main.go`, with the properties of the pipeline proved over it.

Go's `float64` is embedded as IEEE 754 binary64 with round-to-nearest,
ties-to-even arithmetic; `map[string]float64` as an association list that is
read and written at the first entry of a key; logging as the record returned by
each call. `json.Unmarshal` is embedded on the value tree of the payload, after
the documented behaviour of `encoding/json` for a struct with a string, a
`float64` and an `int64` field.
-/

set_option autoImplicit false
set_option exponentiation.threshold 4096
set_option maxRecDepth 200000

namespace StockGo

/-! ## float64 -/

/-- Go `float64` (IEEE 754 binary64). The magnitude of a finite value is counted
in units of `2^-1074`, the smallest positive subnormal, so every finite double is
a sign and a natural number and has exactly one representation. -/
inductive F64
  | nan
  | inf (neg : Bool)
  | fin (neg : Bool) (mag : Nat)
  deriving DecidableEq

namespace F64

/-- Magnitude of `1.0`: `2^1074` units. -/
def unit : Nat := 2 ^ 1074

/-- Magnitude of `2^1024`, the first value that is no longer finite. -/
def limit : Nat := 2 ^ 2098

/-- Number of binary digits of `n`, the recursion bounded by `fuel`. -/
def bitLenAux : Nat → Nat → Nat
  | 0, _ => 0
  | fuel + 1, n => if n = 0 then 0 else bitLenAux fuel (n / 2) + 1

/-- Number of binary digits of `n` (`0` for `n = 0`). -/
def bitLen (n : Nat) : Nat := bitLenAux n n

/-- Nearest integer to `N / D`, ties to the even one. -/
def roundHalfEven (N D : Nat) : Nat :=
  let q := N / D
  let r := N % D
  if 2 * r < D then q else if D < 2 * r then q + 1 else if q % 2 = 0 then q else q + 1

/-- Magnitude `N / D` (in units) rounded to 53 significant bits, ties to even.
The quotient has `bitLen (N / D)` bits; the low `s` of them are rounded away. -/
def roundUnits (N D : Nat) : Nat :=
  let s := bitLen (N / D) - 53
  roundHalfEven N (D * 2 ^ s) * 2 ^ s

/-- Correctly rounded result of an operation whose exact value is `±N / D` units;
a rounded magnitude of `2^1024` or more overflows to infinity. -/
def round (neg : Bool) (N D : Nat) : F64 :=
  let k := roundUnits N D
  if k < limit then fin neg k else inf neg

/-- Conversion of a small natural constant (exact below `2^53`). -/
def ofNat (n : Nat) : F64 := round false (n * unit) 1

/-- Signed magnitude of a finite value, in units. -/
def signed (neg : Bool) (mag : Nat) : Int := if neg then -(mag : Int) else (mag : Int)

/-- Unary minus. -/
def neg : F64 → F64
  | nan => nan
  | inf s => inf (!s)
  | fin s x => fin (!s) x

/-- Go `math.Abs`. -/
def abs : F64 → F64
  | nan => nan
  | inf _ => inf false
  | fin _ x => fin false x

/-- Go `a + b`. An exact sum of zero is `+0` unless both operands are negative. -/
def add : F64 → F64 → F64
  | nan, _ => nan
  | _, nan => nan
  | inf s, inf t => if s = t then inf s else nan
  | inf s, fin _ _ => inf s
  | fin _ _, inf t => inf t
  | fin s x, fin t y =>
    let sum := signed s x + signed t y
    if sum = 0 then fin (s && t) 0 else round (decide (sum < 0)) sum.natAbs 1

/-- Go `a - b`. -/
def sub (a b : F64) : F64 := add a (neg b)

/-- Go `a * b`. -/
def mul : F64 → F64 → F64
  | nan, _ => nan
  | _, nan => nan
  | inf s, inf t => inf (xor s t)
  | inf s, fin t y => if y = 0 then nan else inf (xor s t)
  | fin s x, inf t => if x = 0 then nan else inf (xor s t)
  | fin s x, fin t y => round (xor s t) (x * y) unit

/-- Go `a / b`. -/
def div : F64 → F64 → F64
  | nan, _ => nan
  | _, nan => nan
  | inf _, inf _ => nan
  | inf s, fin t _ => inf (xor s t)
  | fin s _, inf t => fin (xor s t) 0
  | fin s x, fin t y =>
    if y = 0 then (if x = 0 then nan else inf (xor s t))
    else round (xor s t) (x * unit) y

/-- Fused `a * b + c`, rounded once. The Go specification lets a compiler
evaluate `x*y + z` this way. -/
def fma : F64 → F64 → F64 → F64
  | fin s x, fin t y, fin u z =>
    let sum := signed (xor s t) (x * y) + signed u (z * unit)
    if sum = 0 then fin (xor s t && u) 0 else round (decide (sum < 0)) sum.natAbs unit
  | fin _ _, fin _ _, inf u => inf u
  | a, b, c => add (mul a b) c

/-- Go `a < b`: false when either side is NaN; the two zeros are equal. -/
def lt : F64 → F64 → Bool
  | nan, _ => false
  | _, nan => false
  | inf s, inf t => s && !t
  | inf s, fin _ _ => s
  | fin _ _, inf t => !t
  | fin s x, fin t y => decide (signed s x < signed t y)

/-- Go `a > b`. -/
def gt (a b : F64) : Bool := lt b a

/-- Go `a <= b`: false when either side is NaN. -/
def le : F64 → F64 → Bool
  | nan, _ => false
  | _, nan => false
  | inf s, inf t => s || !t
  | inf s, fin _ _ => s
  | fin _ _, inf t => !t
  | fin s x, fin t y => decide (signed s x ≤ signed t y)

/-- Conversion of the decimal constant `digits * 10^(-fracLen)` written in Go
source, rounded to the nearest double. -/
def ofDecimal (digits fracLen : Nat) : F64 := round false (digits * unit) (10 ^ fracLen)

end F64

/-! ## The wire format -/

/-- Modelled from the spec: `shared.StockPrice`, the tick record of the package
`shared`, which is not among the sources. The spec gives it three fields carried
on the wire as `symbol` (string), `price` (number) and `timestamp` (integer
seconds); the Go field names and types are those used by both services. -/
structure StockPrice where
  Symbol : String
  Price : F64
  Timestamp : Int
  deriving DecidableEq

/-- A JSON number literal `[-]int[.frac][e exp]`: `digits` is the integer and
fraction digits read as one numeral, `fracLen` the number of fraction digits
(`0` when there is no fraction part), `exp` the exponent part when written. -/
structure JNumber where
  neg : Bool
  digits : Nat
  fracLen : Nat
  exp : Option Int

/-- A JSON value tree. -/
inductive Json
  | null
  | bool (b : Bool)
  | num (n : JNumber)
  | str (s : String)
  | arr (items : List Json)
  | obj (members : List (String × Json))

/-- The text handed to `json.Unmarshal`, seen through the grammar check that
runs before any decoding: either it is not one JSON value, or it denotes a value
tree. The limit the same check puts on nesting depth is applied in `unmarshal`. -/
inductive Payload
  | invalid
  | value (j : Json)

/-- Go `strconv.ParseFloat(literal, 64)` as `encoding/json` uses it for a
`float64` field: the nearest double, and a range error (`none`) on overflow. -/
def JNumber.toFloat64 (n : JNumber) : Option F64 :=
  let e : Int := n.exp.getD 0 - (n.fracLen : Int)
  let r := if 0 ≤ e then F64.round n.neg (n.digits * 10 ^ e.toNat * F64.unit) 1
           else F64.round n.neg (n.digits * F64.unit) (10 ^ (-e).toNat)
  match r with
  | .fin _ _ => some r
  | _ => none

/-- Go `strconv.ParseInt(literal, 10, 64)` as `encoding/json` uses it for an
`int64` field: a literal with a fraction or exponent part, or out of range, fails. -/
def JNumber.toInt64 (n : JNumber) : Option Int :=
  if n.fracLen = 0 ∧ n.exp = none then
    let v : Int := F64.signed n.neg n.digits
    if -(2 : Int) ^ 63 ≤ v ∧ v < (2 : Int) ^ 63 then some v else none
  else none

/-- Case folding of one character of an object key, as far as it can reach an
ASCII letter: the upper-case ASCII letters, U+017F (long s) and U+212A (Kelvin). -/
def foldKeyChar (c : Char) : Char :=
  if c = Char.ofNat 0x17F then 's'
  else if c = Char.ofNat 0x212A then 'k'
  else c.toLower

/-- Folded form of an object key; `encoding/json` matches a key with a struct
field when the two are equal under Unicode case folding. -/
def foldKey (key : String) : String := ⟨key.data.map foldKeyChar⟩

/-- Decoding of one object member into the struct: a key that matches no field is
skipped, `null` leaves the field as it is, a value of the wrong JSON type or a
number out of range is a type error (`none`). -/
def setField (sp : StockPrice) (key : String) (v : Json) : Option StockPrice :=
  let k := foldKey key
  if k = "symbol" then
    match v with
    | .null => some sp
    | .str s => some { sp with Symbol := s }
    | _ => none
  else if k = "price" then
    match v with
    | .null => some sp
    | .num n => n.toFloat64.map (fun p => { sp with Price := p })
    | _ => none
  else if k = "timestamp" then
    match v with
    | .null => some sp
    | .num n => n.toInt64.map (fun t => { sp with Timestamp := t })
    | _ => none
  else some sp

/-- Decoding of the members of an object, in the order they are written. -/
def unmarshalObject (sp : StockPrice) : List (String × Json) → Option StockPrice
  | [] => some sp
  | (key, v) :: rest => (setField sp key v).bind (fun sp' => unmarshalObject sp' rest)

/-- The zero value of `shared.StockPrice`, what `var priceData shared.StockPrice` holds. -/
def StockPrice.zero : StockPrice := ⟨"", .fin false 0, 0⟩

mutual
/-- Nesting depth of a value: the greatest number of arrays and objects open at
one time while the value is read. -/
def Json.depth : Json → Nat
  | .arr items => Json.depthItems items + 1
  | .obj members => Json.depthMembers members + 1
  | _ => 0
/-- Greatest nesting depth among the items of an array. -/
def Json.depthItems : List Json → Nat
  | [] => 0
  | j :: rest => max j.depth (Json.depthItems rest)
/-- Greatest nesting depth among the member values of an object. -/
def Json.depthMembers : List (String × Json) → Nat
  | [] => 0
  | (_, j) :: rest => max j.depth (Json.depthMembers rest)
end

/-- The constant `maxNestingDepth` of the `encoding/json` scanner: a text that
opens more arrays and objects than this at one time is a syntax error
("exceeded max depth"). -/
def maxNestingDepth : Nat := 10000

/-- Go `json.Unmarshal([]byte(dataStr), &priceData)` on a zero `priceData`:
`none` is a non-nil error. A value nested deeper than `maxNestingDepth` is
rejected before any decoding. Otherwise an object is decoded member by member,
`null` is accepted and changes nothing, any other value is a type error. -/
def unmarshal : Payload → Option StockPrice
  | .invalid => none
  | .value j =>
    if maxNestingDepth < j.depth then none
    else
      match j with
      | .obj members => unmarshalObject StockPrice.zero members
      | .null => some StockPrice.zero
      | _ => none

/-! ## The analyzer -/

/-- A value of `message.Values`, of Go type `interface{}`: a string, or a value
of another dynamic type (named as `%T` prints it). -/
inductive Iface
  | str (s : Payload)
  | other (goType : String)

/-- Go `redis.XMessage`: the entry identifier and the entry's fields. -/
structure XMessage where
  ID : String
  Values : List (String × Iface)

/-- Go `message.Values[key]` with the comma-ok result. -/
def lookupValue : List (String × Iface) → String → Option Iface
  | [], _ => none
  | (k, v) :: rest, key => if k = key then some v else lookupValue rest key

/-- Go `map[string]float64`, the last-price table. -/
abbrev LastPrices := List (String × F64)

/-- Go `lastPrices[symbol]` with the comma-ok result. -/
def LastPrices.get : LastPrices → String → Option F64
  | [], _ => none
  | (k, v) :: rest, key => if k = key then some v else LastPrices.get rest key

/-- Go `lastPrices[symbol] = price`. -/
def LastPrices.set : LastPrices → String → F64 → LastPrices
  | [], key, p => [(key, p)]
  | (k, v) :: rest, key, p => if k = key then (key, p) :: rest else (k, v) :: LastPrices.set rest key p

/-- Go `fmt.Sprintf("%.2f%%", x)`: two decimals, the exact value rounded to the
nearest hundredth with ties to even, then a percent sign. -/
def formatPercent : F64 → String
  | .nan => "NaN%"
  | .inf false => "+Inf%"
  | .inf true => "-Inf%"
  | .fin s x =>
    let h := F64.roundHalfEven (x * 100) F64.unit
    (if s then "-" else "") ++ Nat.repr (h / 100) ++ "." ++
      Nat.repr (h % 100 / 10) ++ Nat.repr (h % 10) ++ "%"

/-- The record one call of `processMessage` hands to `slog`. -/
inductive LogRecord
  | missingEvent
  | notString (goType : String)
  | unmarshalFailed
  | spike (symbol : String) (change_percent : String) (old_price new_price : F64)
  | stable (symbol : String) (price : F64)
  deriving DecidableEq

/-- The threshold constant `0.05` of `processMessage`. -/
def threshold : F64 := F64.ofDecimal 5 2

/-- Go `processMessage(message, lastPrices)`: the table after the call and the
record logged by it (`none` when the call logs nothing). -/
def processMessage (message : XMessage) (lastPrices : LastPrices) :
    LastPrices × Option LogRecord :=
  match lookupValue message.Values "event" with
  | none => (lastPrices, some .missingEvent)
  | some (.other goType) => (lastPrices, some (.notString goType))
  | some (.str dataStr) =>
    match unmarshal dataStr with
    | none => (lastPrices, some .unmarshalFailed)
    | some priceData =>
      let symbol := priceData.Symbol
      let currentPrice := priceData.Price
      let record :=
        match lastPrices.get symbol with
        | some oldPrice =>
          let change := F64.div (F64.sub currentPrice oldPrice) oldPrice
          let absChange := F64.abs change
          if F64.gt absChange threshold then
            some (.spike symbol (formatPercent (F64.mul change (F64.ofNat 100)))
              oldPrice currentPrice)
          else
            some (.stable symbol currentPrice)
        | none => none
      (lastPrices.set symbol currentPrice, record)

/-- The message loop of `main`: every message of a batch goes through
`processMessage` in arrival order, on the one table. Returns the final table and
the record of each message. -/
def processAll : List XMessage → LastPrices → LastPrices × List (Option LogRecord)
  | [], lastPrices => (lastPrices, [])
  | message :: rest, lastPrices =>
    let step := processMessage message lastPrices
    let tail := processAll rest step.1
    (tail.1, step.2 :: tail.2)

/-! ## The ingester -/

/-- The symbol universe of the ingester. -/
def stocks : List String := ["AAPL", "TSLA", "NVDA", "MSFT", "GOOGL"]

/-- The tick built on each interval from the index draw `i = rand.Intn(len(stocks))`,
the draw `r = rand.Float64()` and the clock; `none` is the index-out-of-range
panic. The price is `100.0 + r*500.0`, product and sum each rounded. -/
def priceUpdate (i : Nat) (r : F64) (now : Int) : Option StockPrice :=
  match stocks[i]? with
  | some symbol => some ⟨symbol, F64.add (F64.ofNat 100) (F64.mul r (F64.ofNat 500)), now⟩
  | none => none

/-- The same tick when the compiler fuses `100.0 + r*500.0` into one operation. -/
def priceUpdateFused (i : Nat) (r : F64) (now : Int) : Option StockPrice :=
  match stocks[i]? with
  | some symbol => some ⟨symbol, F64.fma r (F64.ofNat 500) (F64.ofNat 100), now⟩
  | none => none

/-! ## Notions used to state the properties -/

/-- The tick a stream entry decodes to: lines 80 to 96 of `processMessage` taken
alone. `none` when the entry has no `event` field, when the field is not a
string, or when `json.Unmarshal` returns an error. -/
def decodeEvent (message : XMessage) : Option StockPrice :=
  match lookupValue message.Values "event" with
  | some (.str dataStr) => unmarshal dataStr
  | _ => none

/-- The stream entry whose `event` field holds a record with the three fields
`symbol`, `price` (the decimal literal `digits * 10^-fracLen`) and `timestamp`. -/
def tickEntry (symbol : String) (digits fracLen : Nat) (timestamp : Nat) : XMessage :=
  ⟨"0-1", [("event", .str (.value (.obj
    [("symbol", .str symbol),
     ("price", .num ⟨false, digits, fracLen, none⟩),
     ("timestamp", .num ⟨false, timestamp, 0, none⟩)])))]⟩

/-- A magnitude with at most 53 significant bits: `a * 2^t` with `a < 2^53`. -/
def F64.Representable (k : Nat) : Prop := ∃ a t, k = a * 2 ^ t ∧ a < 2 ^ 53

/-! ## The last-price table -/

theorem LastPrices.get_set_self (t : LastPrices) (key : String) (p : F64) :
    LastPrices.get (LastPrices.set t key p) key = some p := by
  induction t with
  | nil => simp [LastPrices.set, LastPrices.get]
  | cons hd rest ih =>
    obtain ⟨k, v⟩ := hd
    by_cases h : k = key
    · simp [LastPrices.set, LastPrices.get, h]
    · simp [LastPrices.set, LastPrices.get, h, ih]

theorem LastPrices.get_set_ne (t : LastPrices) (key other : String) (p : F64)
    (hne : other ≠ key) :
    LastPrices.get (LastPrices.set t key p) other = LastPrices.get t other := by
  induction t with
  | nil => simp [LastPrices.set, LastPrices.get, Ne.symm hne]
  | cons hd rest ih =>
    obtain ⟨k, v⟩ := hd
    by_cases h : k = key
    · subst h
      simp [LastPrices.set, LastPrices.get, Ne.symm hne]
    · by_cases h2 : k = other
      · subst h2
        simp [LastPrices.set, LastPrices.get, h]
      · simp [LastPrices.set, LastPrices.get, h, h2, ih]

/-! ## Unfolding `processMessage` -/

/-- The record `processMessage` logs for a decoded tick, given what the table
held for the tick's symbol. -/
theorem processMessage_of_decoded (message : XMessage) (lastPrices : LastPrices)
    (tick : StockPrice) (hdec : decodeEvent message = some tick) :
    processMessage message lastPrices =
      (LastPrices.set lastPrices tick.Symbol tick.Price,
        match LastPrices.get lastPrices tick.Symbol with
        | some oldPrice =>
          if F64.gt (F64.abs (F64.div (F64.sub tick.Price oldPrice) oldPrice)) threshold then
            some (.spike tick.Symbol
              (formatPercent (F64.mul (F64.div (F64.sub tick.Price oldPrice) oldPrice)
                (F64.ofNat 100))) oldPrice tick.Price)
          else some (.stable tick.Symbol tick.Price)
        | none => none) := by
  unfold decodeEvent at hdec
  unfold processMessage
  cases hl : lookupValue message.Values "event" with
  | none => simp [hl] at hdec
  | some raw =>
    cases raw with
    | other ty => simp [hl] at hdec
    | str d =>
      simp only [hl] at hdec
      simp only [hdec]

/-- An entry that does not decode leaves the table alone and logs one of the
three error records. -/
theorem processMessage_of_undecoded (message : XMessage) (lastPrices : LastPrices)
    (hdec : decodeEvent message = none) :
    (processMessage message lastPrices).1 = lastPrices ∧
    ((processMessage message lastPrices).2 = some .missingEvent ∨
     (∃ ty, (processMessage message lastPrices).2 = some (.notString ty)) ∨
     (processMessage message lastPrices).2 = some .unmarshalFailed) := by
  unfold decodeEvent at hdec
  unfold processMessage
  cases hl : lookupValue message.Values "event" with
  | none => simp
  | some raw =>
    cases raw with
    | other ty => simp
    | str d =>
      simp only [hl] at hdec
      simp [hdec]

/-! ## The message loop -/

namespace F64

/-! ## Rounding -/

theorem bitLenAux_spec (fuel n : Nat) (h : n ≤ fuel) :
    n < 2 ^ bitLenAux fuel n ∧ (n ≠ 0 → 2 ^ (bitLenAux fuel n - 1) ≤ n) := by
  induction fuel generalizing n with
  | zero =>
    have h0 : n = 0 := Nat.le_zero.mp h
    subst h0
    simp [bitLenAux]
  | succ fuel ih =>
    by_cases hn : n = 0
    · subst hn
      simp [bitLenAux]
    · have hhalf : n / 2 ≤ fuel := by omega
      obtain ⟨hlt, hge⟩ := ih (n / 2) hhalf
      simp only [bitLenAux, hn, if_false, Nat.add_sub_cancel]
      constructor
      · rw [Nat.pow_succ]
        omega
      · intro _
        by_cases hz : n / 2 = 0
        · have hb : bitLenAux fuel (n / 2) = 0 := by
            rw [hz]
            cases fuel <;> simp [bitLenAux]
          rw [hb]
          simp
          omega
        · have h1 := hge hz
          have hpos : bitLenAux fuel (n / 2) ≠ 0 := by
            intro hb
            rw [hb] at hlt
            simp at hlt
            exact hz hlt
          obtain ⟨b, hb⟩ := Nat.exists_eq_succ_of_ne_zero hpos
          rw [hb] at h1 ⊢
          simp only [Nat.succ_sub_one] at h1
          rw [Nat.pow_succ]
          omega

theorem lt_two_pow_bitLen (n : Nat) : n < 2 ^ bitLen n :=
  (bitLenAux_spec n n (Nat.le_refl n)).1

theorem two_pow_bitLen_le (n : Nat) (hn : n ≠ 0) : 2 ^ (bitLen n - 1) ≤ n :=
  (bitLenAux_spec n n (Nat.le_refl n)).2 hn

/-- The rounded quotient is not below an integer that the exact quotient reaches. -/
theorem le_roundHalfEven (N D A : Nat) (hD : 0 < D) (h : A * D ≤ N) :
    A ≤ roundHalfEven N D := by
  have hq : A ≤ N / D := (Nat.le_div_iff_mul_le hD).mpr h
  unfold roundHalfEven
  simp only
  split_ifs <;> omega

/-- The rounded quotient is not above an integer that bounds the exact quotient. -/
theorem roundHalfEven_le (N D B : Nat) (hD : 0 < D) (h : N ≤ B * D) :
    roundHalfEven N D ≤ B := by
  have hq : N / D ≤ B := by
    calc N / D ≤ B * D / D := Nat.div_le_div_right h
      _ = B := Nat.mul_div_cancel B hD
  have hdm : D * (N / D) + N % D = N := Nat.div_add_mod N D
  by_cases hlt : N / D < B
  · unfold roundHalfEven
    simp only
    split_ifs <;> omega
  · have heq : N / D = B := by omega
    have hr : N % D = 0 := by
      rw [heq, Nat.mul_comm] at hdm
      omega
    unfold roundHalfEven
    simp only [hr, heq]
    simp [hD]

/-- Rounding to 53 bits does not go below a representable magnitude that the
exact value reaches. -/
theorem le_roundUnits (N D A : Nat) (hD : 0 < D) (hA : Representable A) (h : A * D ≤ N) :
    A ≤ roundUnits N D := by
  obtain ⟨a, t, rfl, ha⟩ := hA
  unfold roundUnits
  simp only
  generalize hs : bitLen (N / D) - 53 = s
  by_cases hts : s ≤ t
  · obtain ⟨d, rfl⟩ := Nat.exists_eq_add_of_le hts
    have hpos : 0 < D * 2 ^ s := Nat.mul_pos hD (Nat.two_pow_pos _)
    have hle : a * 2 ^ d ≤ roundHalfEven N (D * 2 ^ s) := by
      apply le_roundHalfEven _ _ _ hpos
      calc a * 2 ^ d * (D * 2 ^ s) = a * 2 ^ (s + d) * D := by rw [Nat.pow_add]; ring
        _ ≤ N := h
    calc a * 2 ^ (s + d) = a * 2 ^ d * 2 ^ s := by rw [Nat.pow_add]; ring
      _ ≤ roundHalfEven N (D * 2 ^ s) * 2 ^ s := Nat.mul_le_mul_right _ hle
  · have hst : t + 1 ≤ s := by omega
    have hYne : N / D ≠ 0 := by
      intro h0
      have : bitLen (N / D) = 0 := by rw [h0]; rfl
      omega
    have hY : 2 ^ (bitLen (N / D) - 1) ≤ N / D := two_pow_bitLen_le _ hYne
    have hb : bitLen (N / D) - 1 = 52 + s := by omega
    rw [hb] at hY
    have hpos : 0 < D * 2 ^ s := Nat.mul_pos hD (Nat.two_pow_pos _)
    have hND : N / D * D ≤ N := Nat.div_mul_le_self N D
    have hle : 2 ^ 52 ≤ roundHalfEven N (D * 2 ^ s) := by
      apply le_roundHalfEven _ _ _ hpos
      calc 2 ^ 52 * (D * 2 ^ s) = 2 ^ (52 + s) * D := by rw [Nat.pow_add]; ring
        _ ≤ N / D * D := Nat.mul_le_mul_right _ hY
        _ ≤ N := hND
    calc a * 2 ^ t ≤ 2 ^ 53 * 2 ^ t := Nat.mul_le_mul_right _ (Nat.le_of_lt ha)
      _ = 2 ^ 52 * 2 ^ (t + 1) := by rw [Nat.pow_succ]; ring
      _ ≤ 2 ^ 52 * 2 ^ s := Nat.mul_le_mul_left _ (Nat.pow_le_pow_right (by norm_num) hst)
      _ ≤ roundHalfEven N (D * 2 ^ s) * 2 ^ s := Nat.mul_le_mul_right _ hle

/-- Rounding to 53 bits does not go above a representable magnitude that bounds
the exact value. -/
theorem roundUnits_le (N D B : Nat) (hD : 0 < D) (hB : Representable B) (h : N ≤ B * D) :
    roundUnits N D ≤ B := by
  obtain ⟨b, t, rfl, hb⟩ := hB
  unfold roundUnits
  simp only
  generalize hs : bitLen (N / D) - 53 = s
  have hq : N / D ≤ b * 2 ^ t := by
    calc N / D ≤ b * 2 ^ t * D / D := Nat.div_le_div_right h
      _ = b * 2 ^ t := Nat.mul_div_cancel _ hD
  by_cases hts : s ≤ t
  · obtain ⟨d, rfl⟩ := Nat.exists_eq_add_of_le hts
    have hpos : 0 < D * 2 ^ s := Nat.mul_pos hD (Nat.two_pow_pos _)
    have hle : roundHalfEven N (D * 2 ^ s) ≤ b * 2 ^ d := by
      apply roundHalfEven_le _ _ _ hpos
      calc N ≤ b * 2 ^ (s + d) * D := h
        _ = b * 2 ^ d * (D * 2 ^ s) := by rw [Nat.pow_add]; ring
    calc roundHalfEven N (D * 2 ^ s) * 2 ^ s ≤ b * 2 ^ d * 2 ^ s := Nat.mul_le_mul_right _ hle
      _ = b * 2 ^ (s + d) := by rw [Nat.pow_add]; ring
  · exfalso
    have hst : t + 1 ≤ s := by omega
    have hYne : N / D ≠ 0 := by
      intro h0
      have : bitLen (N / D) = 0 := by rw [h0]; rfl
      omega
    have hY : 2 ^ (bitLen (N / D) - 1) ≤ N / D := two_pow_bitLen_le _ hYne
    have hbl : bitLen (N / D) - 1 = 52 + s := by omega
    rw [hbl] at hY
    have : b * 2 ^ t < 2 ^ (52 + s) := by
      calc b * 2 ^ t < 2 ^ 53 * 2 ^ t := Nat.mul_lt_mul_of_pos_right hb (Nat.two_pow_pos _)
        _ = 2 ^ 52 * 2 ^ (t + 1) := by rw [Nat.pow_succ]; ring
        _ ≤ 2 ^ 52 * 2 ^ s := Nat.mul_le_mul_left _ (Nat.pow_le_pow_right (by norm_num) hst)
        _ = 2 ^ (52 + s) := by rw [Nat.pow_add]
    omega


theorem unit_pos : 0 < unit := Nat.two_pow_pos 1074

theorem ofNat_small (n : Nat) (hn : n < 2 ^ 53) : ofNat n = fin false (n * unit) := by
  have hrep : Representable (n * unit) := ⟨n, 1074, rfl, hn⟩
  have h1 : roundUnits (n * unit) 1 ≤ n * unit :=
    roundUnits_le _ _ _ Nat.one_pos hrep (by rw [Nat.mul_one])
  have h2 : n * unit ≤ roundUnits (n * unit) 1 :=
    le_roundUnits _ _ _ Nat.one_pos hrep (by rw [Nat.mul_one])
  have heq : roundUnits (n * unit) 1 = n * unit := Nat.le_antisymm h1 h2
  have hlim : n * unit < limit := by
    have : limit = 2 ^ 1024 * unit := by decide
    rw [this]
    exact Nat.mul_lt_mul_of_pos_right (Nat.lt_trans hn (by decide)) unit_pos
  unfold ofNat round
  simp only [heq, hlim, if_true]

theorem representable_mul_unit (n : Nat) (hn : n < 2 ^ 53) : Representable (n * unit) :=
  ⟨n, 1074, rfl, hn⟩

/-- Rounding of an exact value between two small integer constants stays between them. -/
theorem round_between (N D lo hi : Nat) (hD : 0 < D) (hhi : hi < 2 ^ 53)
    (h1 : lo * unit * D ≤ N) (h2 : N ≤ hi * unit * D) (hlo : lo ≤ hi) :
    ∃ q, round false N D = fin false q ∧ lo * unit ≤ q ∧ q ≤ hi * unit := by
  have hlo' : lo < 2 ^ 53 := Nat.lt_of_le_of_lt hlo hhi
  have hq1 := le_roundUnits N D (lo * unit) hD (representable_mul_unit lo hlo') h1
  have hq2 := roundUnits_le N D (hi * unit) hD (representable_mul_unit hi hhi) h2
  have hlim : hi * unit < limit := by
    have : limit = 2 ^ 1024 * unit := by decide
    rw [this]
    exact Nat.mul_lt_mul_of_pos_right (Nat.lt_trans hhi (by decide)) unit_pos
  refine ⟨roundUnits N D, ?_, hq1, hq2⟩
  unfold round
  simp only [Nat.lt_of_le_of_lt hq2 hlim, if_true]

/-- A draw `r` with `0 <= r < 1` is a finite value of magnitude below one, and
is `+0` or `-0` when its sign bit is set. -/
theorem draw_cases (r : F64) (h0 : le (ofNat 0) r = true) (h1 : lt r (ofNat 1) = true) :
    ∃ s k, r = fin s k ∧ k < unit ∧ (s = true → k = 0) := by
  rw [ofNat_small 0 (by decide)] at h0
  rw [ofNat_small 1 (by decide)] at h1
  cases r with
  | nan => simp [le] at h0
  | inf s =>
    cases s
    · simp [lt] at h1
    · simp [le] at h0
  | fin s k =>
    refine ⟨s, k, rfl, ?_, ?_⟩
    · cases s
      · simpa [lt, signed] using h1
      · simp only [le, signed, decide_eq_true_eq] at h0
        simp at h0
        have := unit_pos
        omega
    · intro hs
      subst hs
      simp only [le, signed, decide_eq_true_eq] at h0
      simp at h0
      omega

/-- The price `100.0 + r*500.0` for a draw `0 <= r < 1`, product and sum rounded
in turn: a finite value between 100 and 600. -/
theorem price_between (r : F64) (h0 : le (ofNat 0) r = true) (h1 : lt r (ofNat 1) = true) :
    ∃ q, add (ofNat 100) (mul r (ofNat 500)) = fin false q ∧
      100 * unit ≤ q ∧ q ≤ 600 * unit := by
  obtain ⟨s, k, rfl, hk, hs⟩ := draw_cases r h0 h1
  rw [ofNat_small 100 (by decide), ofNat_small 500 (by decide)]
  have hprod : ∃ p, round false (k * (500 * unit)) unit = fin false p ∧
      0 * unit ≤ p ∧ p ≤ 500 * unit := by
    apply round_between _ _ 0 500 unit_pos (by decide) (by simp) _ (by decide)
    calc k * (500 * unit) ≤ unit * (500 * unit) := Nat.mul_le_mul_right _ (Nat.le_of_lt hk)
      _ = 500 * unit * unit := by ring
  obtain ⟨p, hp, -, hp500⟩ := hprod
  have hmul : ∃ s', mul (fin s k) (fin false (500 * unit)) = fin s' p ∧ (s' = true → p = 0) := by
    cases s with
    | false => exact ⟨false, by simp [mul, hp], by simp⟩
    | true =>
      have hk0 : k = 0 := hs rfl
      subst hk0
      have hp0 : p = 0 := by
        have : round false (0 * (500 * unit)) unit = fin false 0 := by decide
        rw [this] at hp
        injection hp with _ h
        exact h.symm
      subst hp0
      refine ⟨true, ?_, fun _ => rfl⟩
      decide
  obtain ⟨s', hmul, hs'⟩ := hmul
  rw [hmul]
  have hsum : signed false (100 * unit) + signed s' p = ((100 * unit + p : Nat) : Int) := by
    cases s' with
    | false => simp [signed]
    | true => simp [signed, hs' rfl]
  have hpos : 0 < 100 * unit + p := by have := unit_pos; omega
  have hadd : add (fin false (100 * unit)) (fin s' p) = round false (100 * unit + p) 1 := by
    simp only [add, hsum]
    have hne : ((100 * unit + p : Nat) : Int) ≠ 0 := by exact_mod_cast Nat.pos_iff_ne_zero.mp hpos
    have hnn : ¬ ((100 * unit + p : Nat) : Int) < 0 := by
      exact_mod_cast Nat.not_lt_zero _
    simp only [hne, if_false, Int.natAbs_ofNat, hnn, decide_False]
  rw [hadd]
  apply round_between _ _ 100 600 Nat.one_pos (by decide) (by omega) (by omega) (by decide)

/-- The same price computed with one fused multiply-add. -/
theorem fused_price_between (r : F64) (h0 : le (ofNat 0) r = true)
    (h1 : lt r (ofNat 1) = true) :
    ∃ q, fma r (ofNat 500) (ofNat 100) = fin false q ∧
      100 * unit ≤ q ∧ q ≤ 600 * unit := by
  obtain ⟨s, k, rfl, hk, hs⟩ := draw_cases r h0 h1
  rw [ofNat_small 100 (by decide), ofNat_small 500 (by decide)]
  have hsum : signed (xor s false) (k * (500 * unit)) + signed false (100 * unit * unit) =
      ((k * (500 * unit) + 100 * unit * unit : Nat) : Int) := by
    cases s with
    | false => simp [signed]
    | true => simp [signed, hs rfl]
  have hpos : 0 < k * (500 * unit) + 100 * unit * unit := by
    have := Nat.mul_pos (Nat.mul_pos (by decide : 0 < 100) unit_pos) unit_pos
    omega
  have hfma : fma (fin s k) (fin false (500 * unit)) (fin false (100 * unit)) =
      round false (k * (500 * unit) + 100 * unit * unit) unit := by
    simp only [fma, hsum]
    have hne : ((k * (500 * unit) + 100 * unit * unit : Nat) : Int) ≠ 0 := by
      exact_mod_cast Nat.pos_iff_ne_zero.mp hpos
    have hnn : ¬ ((k * (500 * unit) + 100 * unit * unit : Nat) : Int) < 0 := by
      exact_mod_cast Nat.not_lt_zero _
    simp only [hne, if_false, Int.natAbs_ofNat, hnn, decide_False]
  rw [hfma]
  apply round_between _ _ 100 600 unit_pos (by decide) (by omega) _ (by decide)
  calc k * (500 * unit) + 100 * unit * unit
      ≤ unit * (500 * unit) + 100 * unit * unit :=
        Nat.add_le_add_right (Nat.mul_le_mul_right _ (Nat.le_of_lt hk)) _
    _ = 600 * unit * unit := by ring

end F64

/-! ## Decoding of records -/

namespace F64

/-- A non-zero magnitude does not round to zero. -/
theorem round_ne_zero (s : Bool) (x : Nat) (hx : x ≠ 0) :
    (∃ k, k ≠ 0 ∧ round s x 1 = fin s k) ∨ round s x 1 = inf s := by
  have h1 : 1 ≤ roundUnits x 1 :=
    le_roundUnits x 1 1 Nat.one_pos ⟨1, 0, rfl, by decide⟩ (by omega)
  unfold round
  simp only
  by_cases hl : roundUnits x 1 < limit
  · left
    exact ⟨roundUnits x 1, by omega, by simp [hl]⟩
  · right
    simp [hl]

/-- With a zero prior price the computed change is NaN when the new price is
zero or NaN, and an infinity otherwise. -/
theorem change_of_zero_prior (price : F64) (s : Bool) :
    ((price = nan ∨ ∃ u, price = fin u 0) → div (sub price (fin s 0)) (fin s 0) = nan) ∧
    ((price ≠ nan ∧ ∀ u, price ≠ fin u 0) →
      ∃ v, div (sub price (fin s 0)) (fin s 0) = inf v) := by
  constructor
  · rintro (h | ⟨u, h⟩)
    · subst h
      rfl
    · subst h
      simp [sub, neg, add, signed, div]
  · rintro ⟨hnan, hz⟩
    cases price with
    | nan => exact absurd rfl hnan
    | inf u => exact ⟨xor u s, by simp [sub, neg, add, div]⟩
    | fin u x =>
      have hx : x ≠ 0 := fun h => hz u (by rw [h])
      have hsub : sub (fin u x) (fin s 0) = round u x 1 := by
        have hsum : signed u x + signed (!s) 0 = signed u x := by simp [signed]
        have hne : signed u x ≠ 0 := by
          cases u <;> simp [signed, hx]
        have hneg : decide (signed u x < 0) = u := by
          cases u
          · simp [signed]
          · simp [signed]
            omega
        have habs : (signed u x).natAbs = x := by
          cases u <;> simp [signed]
        simp only [sub, neg, add, hsum, hne, if_false, hneg, habs]
      rw [hsub]
      rcases round_ne_zero u x hx with ⟨k, hk, hr⟩ | hr
      · exact ⟨xor u s, by rw [hr]; simp [div, hk]⟩
      · exact ⟨xor u s, by rw [hr]; simp [div]⟩

theorem threshold_value : ofDecimal 5 2 = fin false (0x1999999999999A * 2 ^ 1017) := by decide

end F64

/-! ## The threshold in exact arithmetic -/

namespace F64

/-- The number of binary digits of a value between two consecutive powers of two. -/
theorem bitLen_eq (n b : Nat) (h1 : 2 ^ b ≤ n) (h2 : n < 2 ^ (b + 1)) : bitLen n = b + 1 := by
  have hn : n ≠ 0 := by
    have := Nat.two_pow_pos b
    omega
  have hlt := lt_two_pow_bitLen n
  have hge := two_pow_bitLen_le n hn
  by_contra hne
  rcases Nat.lt_or_gt_of_ne hne with h | h
  · have : 2 ^ bitLen n ≤ 2 ^ b := Nat.pow_le_pow_right (by norm_num) (by omega)
    omega
  · have : 2 ^ (b + 1) ≤ 2 ^ (bitLen n - 1) := Nat.pow_le_pow_right (by norm_num) (by omega)
    omega

/-- Rounding goes above a 53-bit magnitude `M * 2^(e+1)` with `M` even exactly
when the exact value is above the midpoint to the next one: a value at the
midpoint is a tie and goes to the even side. -/
theorem roundUnits_gt_iff (M e N D : Nat) (hM1 : 2 ^ 52 ≤ M) (hM2 : M < 2 ^ 53)
    (hev : M % 2 = 0) (hD : 0 < D) :
    M * 2 ^ (e + 1) < roundUnits N D ↔ (2 * M + 1) * 2 ^ e * D < N := by
  have hpe : 0 < 2 ^ e := Nat.two_pow_pos e
  have hP : 0 < 2 ^ e * D := Nat.mul_pos hpe hD
  have h2e : 2 ^ (e + 1) = 2 * 2 ^ e := by rw [Nat.pow_succ]; ring
  by_cases hhi : (M + 1) * 2 ^ (e + 1) * D ≤ N
  · have hrep : Representable ((M + 1) * 2 ^ (e + 1)) := ⟨M + 1, e + 1, rfl, by omega⟩
    have h1 := le_roundUnits N D _ hD hrep hhi
    have h3 : M * 2 ^ (e + 1) < (M + 1) * 2 ^ (e + 1) :=
      Nat.mul_lt_mul_of_pos_right (Nat.lt_succ_self M) (Nat.two_pow_pos _)
    have h4 : (2 * M + 1) * 2 ^ e * D < (M + 1) * 2 ^ (e + 1) * D := by
      have : (M + 1) * 2 ^ (e + 1) * D = (2 * M + 1) * 2 ^ e * D + 2 ^ e * D := by
        rw [h2e]; ring
      omega
    constructor
    · intro _; omega
    · intro _; omega
  · by_cases hlo : N ≤ M * 2 ^ (e + 1) * D
    · have hrep : Representable (M * 2 ^ (e + 1)) := ⟨M, e + 1, rfl, hM2⟩
      have h1 := roundUnits_le N D _ hD hrep hlo
      have h4 : M * 2 ^ (e + 1) * D ≤ (2 * M + 1) * 2 ^ e * D := by
        have : (2 * M + 1) * 2 ^ e * D = M * 2 ^ (e + 1) * D + 2 ^ e * D := by
          rw [h2e]; ring
        omega
      constructor
      · intro _; omega
      · intro _; omega
    · have hlo' : M * 2 ^ (e + 1) * D < N := Nat.lt_of_not_le hlo
      have hhi' : N < (M + 1) * 2 ^ (e + 1) * D := Nat.lt_of_not_le hhi
      have hY1 : M * 2 ^ (e + 1) ≤ N / D := (Nat.le_div_iff_mul_le hD).mpr (Nat.le_of_lt hlo')
      have hY2 : N / D < (M + 1) * 2 ^ (e + 1) := (Nat.div_lt_iff_lt_mul hD).mpr hhi'
      have hb : bitLen (N / D) = 52 + (e + 1) + 1 := by
        apply bitLen_eq
        · calc 2 ^ (52 + (e + 1)) = 2 ^ 52 * 2 ^ (e + 1) := Nat.pow_add _ _ _
            _ ≤ M * 2 ^ (e + 1) := Nat.mul_le_mul_right _ hM1
            _ ≤ N / D := hY1
        · calc N / D < (M + 1) * 2 ^ (e + 1) := hY2
            _ ≤ 2 ^ 53 * 2 ^ (e + 1) := Nat.mul_le_mul_right _ (by omega)
            _ = 2 ^ (52 + (e + 1) + 1) := by
              rw [show 52 + (e + 1) + 1 = 53 + (e + 1) by omega]
              exact (Nat.pow_add 2 53 (e + 1)).symm
      have hs : bitLen (N / D) - 53 = e + 1 := by omega
      unfold roundUnits
      simp only [hs]
      have hD' : 0 < D * 2 ^ (e + 1) := Nat.mul_pos hD (Nat.two_pow_pos _)
      have hq : N / (D * 2 ^ (e + 1)) = M := by
        apply Nat.div_eq_of_lt_le
        · calc M * (D * 2 ^ (e + 1)) = M * 2 ^ (e + 1) * D := by ring
            _ ≤ N := Nat.le_of_lt hlo'
        · calc N < (M + 1) * 2 ^ (e + 1) * D := hhi'
            _ = (M + 1) * (D * 2 ^ (e + 1)) := by ring
      have hdm : D * 2 ^ (e + 1) * (N / (D * 2 ^ (e + 1))) + N % (D * 2 ^ (e + 1)) = N :=
        Nat.div_add_mod N _
      rw [hq] at hdm
      have hmul : M * 2 ^ (e + 1) < roundHalfEven N (D * 2 ^ (e + 1)) * 2 ^ (e + 1) ↔
          M < roundHalfEven N (D * 2 ^ (e + 1)) :=
        Nat.mul_lt_mul_right (Nat.two_pow_pos _)
      rw [hmul]
      have e1 : D * 2 ^ (e + 1) = 2 * (2 ^ e * D) := by rw [h2e]; ring
      have e2 : D * 2 ^ (e + 1) * M = 2 * (M * (2 ^ e * D)) := by rw [h2e]; ring
      have e3 : (2 * M + 1) * 2 ^ e * D = 2 * (M * (2 ^ e * D)) + 2 ^ e * D := by ring
      rw [e3]
      rw [e2] at hdm
      unfold roundHalfEven
      simp only [hq]
      rw [e1]
      rw [e1] at hdm
      generalize N % (2 * (2 ^ e * D)) = r at hdm ⊢
      generalize 2 ^ e * D = P at hdm hP ⊢
      generalize M * P = W at hdm ⊢
      split_ifs <;> omega


theorem roundUnits_zero (D : Nat) (hD : 0 < D) : roundUnits 0 D = 0 :=
  Nat.le_zero.mp (roundUnits_le 0 D 0 hD ⟨0, 0, rfl, by decide⟩ (by simp))

theorem signed_not (s : Bool) (x : Nat) : signed (!s) x = -signed s x := by
  cases s <;> simp [signed]

/-- The difference of two finite values: the exact difference rounded, an
infinity when the rounded magnitude leaves the finite range. -/
theorem sub_fin (s t : Bool) (o n : Nat) :
    ∃ σ, sub (fin t n) (fin s o) =
      if roundUnits (signed t n - signed s o).natAbs 1 < limit then
        fin σ (roundUnits (signed t n - signed s o).natAbs 1)
      else inf σ := by
  have hsum : signed t n + signed (!s) o = signed t n - signed s o := by
    rw [signed_not]; ring
  by_cases hz : signed t n - signed s o = 0
  · refine ⟨t && !s, ?_⟩
    have hlim : (0 : Nat) < limit := by decide
    simp only [sub, neg, add, hsum, hz, if_true, Int.natAbs_zero,
      roundUnits_zero 1 Nat.one_pos, hlim]
  · refine ⟨decide (signed t n - signed s o < 0), ?_⟩
    simp only [sub, neg, add, hsum, hz, if_false, round]

/-- Comparison of a rounded magnitude with a finite positive bound. -/
theorem gt_abs_round (σ : Bool) (N D T : Nat) (hT : T < limit) :
    gt (abs (round σ N D)) (fin false T) = true ↔ T < roundUnits N D := by
  unfold round
  simp only
  by_cases hk : roundUnits N D < limit
  · simp only [hk, if_true, abs, gt, lt, signed, Bool.false_eq_true, if_false,
      decide_eq_true_eq]
    exact Int.ofNat_lt
  · simp only [hk, if_false, abs, gt, lt, Bool.not_false, true_iff]
    omega

/-- The float64 spike criterion in exact arithmetic, for a finite non-zero prior
price of magnitude `o`: with `d` the double nearest `|p_new - p_old|`, the
computed `|d / p_old|` is above the double `0.05` exactly when
`d / o > 14411518807585589 * 2^-58`, the midpoint between the double `0.05` and
the next double. -/
theorem gt_threshold_iff (s t : Bool) (o n : Nat) (ho : 0 < o) (hlim : o < limit) :
    gt (abs (div (sub (fin t n) (fin s o)) (fin s o))) (ofDecimal 5 2) = true ↔
      14411518807585589 * 2 ^ 1016 * o <
        roundUnits (signed t n - signed s o).natAbs 1 * unit := by
  rw [threshold_value]
  have hT : 7205759403792794 * 2 ^ 1017 < limit := by decide
  have hone : ¬ o = 0 := by omega
  obtain ⟨σ, hsub⟩ := sub_fin s t o n
  rw [hsub]
  generalize roundUnits (signed t n - signed s o).natAbs 1 = d
  by_cases hd : d < limit
  · simp only [hd, if_true]
    have hdiv : div (fin σ d) (fin s o) = round (xor σ s) (d * unit) o := by
      simp only [div, hone, if_false]
    rw [hdiv, show (0x1999999999999A : Nat) = 7205759403792794 by rfl,
      gt_abs_round _ _ _ _ hT]
    have h := roundUnits_gt_iff 7205759403792794 1016 (d * unit) o (by decide) (by decide)
      (by decide) ho
    simpa using h
  · simp only [hd, if_false]
    have hdiv : div (inf σ) (fin s o) = inf (xor σ s) := by
      simp only [div]
    rw [hdiv]
    have hgt : gt (abs (inf (xor σ s))) (fin false (0x1999999999999A * 2 ^ 1017)) = true := rfl
    simp only [hgt, true_iff]
    have h1 : 14411518807585589 * 2 ^ 1016 * o < 14411518807585589 * 2 ^ 1016 * limit :=
      Nat.mul_lt_mul_of_pos_left hlim (by decide)
    have h2 : 14411518807585589 * 2 ^ 1016 * limit ≤ unit * limit :=
      Nat.mul_le_mul_right _ (by decide)
    have h3 : unit * limit ≤ unit * d := Nat.mul_le_mul_left _ (by omega)
    calc 14411518807585589 * 2 ^ 1016 * o < unit * d := by omega
      _ = d * unit := Nat.mul_comm _ _

end F64

/-! ## The claims -/

/-- C1, as the code behaves. When the table holds a prior price `p_old` for the
symbol of a decoded tick with price `p_new`, `processMessage` logs a spike
exactly when the `float64` value it computes for `|(p_new - p_old) / p_old|`,
difference and quotient each rounded to the nearest double, is greater than the
double nearest `0.05`, and logs the tick as stable otherwise. For a finite
non-zero `p_old` of magnitude `o` this is exactly when
`d / o > 14411518807585589 * 2^-58`, where `d` is the double nearest
`|p_new - p_old|`: the bound is the midpoint between the double `0.05` and the
next double, a little above `0.05`. With `p_old = 100` the ticks `105.0001` and
`94.9999` are spikes, reported as "5.00%" and "-5.00%", and the ticks `105.0`
and `95.0` are stable. -/
theorem spike_iff_change_exceeds_threshold (message : XMessage) (lastPrices : LastPrices)
    (tick : StockPrice) (oldPrice : F64) (hdec : decodeEvent message = some tick)
    (hold : LastPrices.get lastPrices tick.Symbol = some oldPrice) :
    ((∃ pct, (processMessage message lastPrices).2 =
        some (.spike tick.Symbol pct oldPrice tick.Price)) ↔
      F64.gt (F64.abs (F64.div (F64.sub tick.Price oldPrice) oldPrice))
        (F64.ofDecimal 5 2) = true) ∧
    ((processMessage message lastPrices).2 = some (.stable tick.Symbol tick.Price) ↔
      ¬ F64.gt (F64.abs (F64.div (F64.sub tick.Price oldPrice) oldPrice))
        (F64.ofDecimal 5 2) = true) ∧
    (∀ (s t : Bool) (o n : Nat), oldPrice = F64.fin s o → tick.Price = F64.fin t n →
      0 < o → o < F64.limit →
      ((∃ pct, (processMessage message lastPrices).2 =
          some (.spike tick.Symbol pct oldPrice tick.Price)) ↔
        14411518807585589 * 2 ^ 1016 * o <
          F64.roundUnits (F64.signed t n - F64.signed s o).natAbs 1 * F64.unit) ∧
      ((processMessage message lastPrices).2 = some (.stable tick.Symbol tick.Price) ↔
        F64.roundUnits (F64.signed t n - F64.signed s o).natAbs 1 * F64.unit ≤
          14411518807585589 * 2 ^ 1016 * o)) ∧
    (oldPrice = F64.ofNat 100 → tick.Price = F64.ofDecimal 1050001 4 →
      (processMessage message lastPrices).2 =
        some (.spike tick.Symbol "5.00%" oldPrice tick.Price)) ∧
    (oldPrice = F64.ofNat 100 → tick.Price = F64.ofNat 105 →
      (processMessage message lastPrices).2 = some (.stable tick.Symbol tick.Price)) ∧
    (oldPrice = F64.ofNat 100 → tick.Price = F64.ofDecimal 949999 4 →
      (processMessage message lastPrices).2 =
        some (.spike tick.Symbol "-5.00%" oldPrice tick.Price)) ∧
    (oldPrice = F64.ofNat 100 → tick.Price = F64.ofNat 95 →
      (processMessage message lastPrices).2 = some (.stable tick.Symbol tick.Price)) := by
  have hthr : threshold = F64.ofDecimal 5 2 := rfl
  have hspike : (∃ pct, (processMessage message lastPrices).2 =
        some (.spike tick.Symbol pct oldPrice tick.Price)) ↔
      F64.gt (F64.abs (F64.div (F64.sub tick.Price oldPrice) oldPrice))
        (F64.ofDecimal 5 2) = true := by
    rw [processMessage_of_decoded message lastPrices tick hdec]
    simp only [hold, hthr]
    by_cases hgt : F64.gt (F64.abs (F64.div (F64.sub tick.Price oldPrice) oldPrice))
        (F64.ofDecimal 5 2) = true
    · simp [hgt]
    · simp [hgt]
  have hstable : (processMessage message lastPrices).2 =
        some (.stable tick.Symbol tick.Price) ↔
      ¬ F64.gt (F64.abs (F64.div (F64.sub tick.Price oldPrice) oldPrice))
        (F64.ofDecimal 5 2) = true := by
    rw [processMessage_of_decoded message lastPrices tick hdec]
    simp only [hold, hthr]
    by_cases hgt : F64.gt (F64.abs (F64.div (F64.sub tick.Price oldPrice) oldPrice))
        (F64.ofDecimal 5 2) = true
    · simp [hgt]
    · simp [hgt]
  have hrec : ∀ (p : F64) (b : Bool), tick.Price = p →
      F64.gt (F64.abs (F64.div (F64.sub p oldPrice) oldPrice)) (F64.ofDecimal 5 2) = b →
      (processMessage message lastPrices).2 =
        if b then some (.spike tick.Symbol
          (formatPercent (F64.mul (F64.div (F64.sub p oldPrice) oldPrice) (F64.ofNat 100)))
          oldPrice tick.Price)
        else some (.stable tick.Symbol tick.Price) := by
    intro p b hp hb
    rw [processMessage_of_decoded message lastPrices tick hdec]
    simp only [hold, hthr, hp, hb]
  refine ⟨hspike, hstable, ?_, ?_, ?_, ?_, ?_⟩
  · intro s t o n ho hn hpos hlim
    have hiff := F64.gt_threshold_iff s t o n hpos hlim
    rw [← ho, ← hn] at hiff
    refine ⟨hspike.trans hiff, hstable.trans ?_⟩
    rw [hiff]
    exact Nat.not_lt
  · intro h1 h2
    subst h1
    have h := hrec (F64.ofDecimal 1050001 4) true h2 (by decide)
    have hpct : formatPercent (F64.mul (F64.div (F64.sub (F64.ofDecimal 1050001 4)
        (F64.ofNat 100)) (F64.ofNat 100)) (F64.ofNat 100)) = "5.00%" := by decide
    rw [hpct] at h
    simpa using h
  · intro h1 h2
    subst h1
    have h := hrec (F64.ofNat 105) false h2 (by decide)
    simpa using h
  · intro h1 h2
    subst h1
    have h := hrec (F64.ofDecimal 949999 4) true h2 (by decide)
    have hpct : formatPercent (F64.mul (F64.div (F64.sub (F64.ofDecimal 949999 4)
        (F64.ofNat 100)) (F64.ofNat 100)) (F64.ofNat 100)) = "-5.00%" := by decide
    rw [hpct] at h
    simpa using h
  · intro h1 h2
    subst h1
    have h := hrec (F64.ofNat 95) false h2 (by decide)
    simpa using h

theorem spike_iff_change_exceeds_threshold_witness :
    (processMessage (tickEntry "AAPL" 949999 4 7) [("AAPL", F64.ofNat 100)]).2 =
      some (.spike "AAPL" "-5.00%" (F64.ofNat 100) (F64.ofDecimal 949999 4)) ∧
    (processMessage (tickEntry "AAPL" 95 0 7) [("AAPL", F64.ofNat 100)]).2 =
      some (.stable "AAPL" (F64.ofNat 95)) :=
  ⟨(spike_iff_change_exceeds_threshold (tickEntry "AAPL" 949999 4 7) [("AAPL", F64.ofNat 100)]
      ⟨"AAPL", F64.ofDecimal 949999 4, 7⟩ (F64.ofNat 100) (by decide)
      (by decide)).2.2.2.2.2.1 rfl rfl,
   (spike_iff_change_exceeds_threshold (tickEntry "AAPL" 95 0 7) [("AAPL", F64.ofNat 100)]
      ⟨"AAPL", F64.ofNat 95, 7⟩ (F64.ofNat 100) (by decide) (by decide)).2.2.2.2.2.2 rfl rfl⟩

/-- C1 fails when its criterion is read in exact arithmetic. The prices
`482.50492` and `506.63016600000003` decode to the doubles
`8488316319986059 * 2^-44` and `4456366067992681 * 2^-43`; their relative change
is above `0.05` both on the decimal numbers as written and on the exact values
of the two doubles, yet the quotient computed in `float64` is exactly the double
`0.05` and `processMessage` logs the tick as stable. -/
theorem exact_change_above_threshold_logged_stable :
    F64.ofDecimal 48250492 5 = F64.fin false (8488316319986059 * 2 ^ 1030) ∧
    F64.ofDecimal 50663016600000003 14 = F64.fin false (4456366067992681 * 2 ^ 1031) ∧
    8488316319986059 * 2 ^ 1030 <
      20 * (4456366067992681 * 2 ^ 1031 - 8488316319986059 * 2 ^ 1030) ∧
    48250492 * 10 ^ 9 < 20 * (50663016600000003 - 48250492 * 10 ^ 9) ∧
    F64.div (F64.sub (F64.ofDecimal 50663016600000003 14) (F64.ofDecimal 48250492 5))
      (F64.ofDecimal 48250492 5) = F64.ofDecimal 5 2 ∧
    processMessage (tickEntry "AAPL" 50663016600000003 14 7)
        [("AAPL", F64.ofDecimal 48250492 5)] =
      ([("AAPL", F64.ofDecimal 50663016600000003 14)],
       some (.stable "AAPL" (F64.ofDecimal 50663016600000003 14))) := by
  refine ⟨by decide, by decide, by decide, by decide, by decide, by decide⟩

/-- C6. From the empty table, three ticks for "AAPL" with prices 200, 190, 180:
nothing is logged for the first, the second is stable (relative change exactly
the double -0.05, whose magnitude is not above 0.05), and the third is a spike
reported with old price 190, new price 180 and change percent "-5.26%", the
change being (180 - 190) / 190. -/
theorem aapl_scenario :
    processAll [tickEntry "AAPL" 200 0 1, tickEntry "AAPL" 190 0 2, tickEntry "AAPL" 180 0 3] [] =
      ([("AAPL", F64.ofNat 180)],
       [none,
        some (.stable "AAPL" (F64.ofNat 190)),
        some (.spike "AAPL" "-5.26%" (F64.ofNat 190) (F64.ofNat 180))]) ∧
    F64.div (F64.sub (F64.ofNat 190) (F64.ofNat 200)) (F64.ofNat 200) =
      F64.neg (F64.ofDecimal 5 2) ∧
    formatPercent (F64.mul (F64.div (F64.sub (F64.ofNat 180) (F64.ofNat 190)) (F64.ofNat 190))
      (F64.ofNat 100)) = "-5.26%" := by
  refine ⟨by decide, by decide, by decide⟩

/-- C2. After `processMessage` has processed a successfully decoded tick with
symbol `S` and price `P`, the table maps `S` to `P`, whatever record was logged
(spike, stable, or none for a first observation). -/
theorem table_holds_new_price (message : XMessage) (lastPrices : LastPrices)
    (tick : StockPrice) (hdec : decodeEvent message = some tick) :
    LastPrices.get (processMessage message lastPrices).1 tick.Symbol = some tick.Price := by
  rw [processMessage_of_decoded message lastPrices tick hdec]
  exact LastPrices.get_set_self lastPrices tick.Symbol tick.Price

theorem table_holds_new_price_witness :
    decodeEvent (tickEntry "AAPL" 105 0 7) = some ⟨"AAPL", F64.ofNat 105, 7⟩ ∧
    LastPrices.get (processMessage (tickEntry "AAPL" 105 0 7) [("AAPL", F64.ofNat 100)]).1
      "AAPL" = some (F64.ofNat 105) :=
  ⟨by decide, table_holds_new_price (tickEntry "AAPL" 105 0 7) [("AAPL", F64.ofNat 100)]
    ⟨"AAPL", F64.ofNat 105, 7⟩ (by decide)⟩

/-- C3. When the table has no entry for the symbol of a decoded tick, in
particular when it is the empty table built at start, `processMessage` logs
nothing for the tick: no spike alert, whatever the price. -/
theorem first_observation_no_alert (message : XMessage) (lastPrices : LastPrices)
    (tick : StockPrice) (hdec : decodeEvent message = some tick)
    (habsent : LastPrices.get lastPrices tick.Symbol = none) :
    (processMessage message lastPrices).2 = none ∧
    (processMessage message []).2 = none := by
  constructor
  · rw [processMessage_of_decoded message lastPrices tick hdec]
    simp only [habsent]
  · rw [processMessage_of_decoded message [] tick hdec]
    rfl

theorem first_observation_no_alert_witness :
    (processMessage (tickEntry "TSLA" 99999 0 7) [("AAPL", F64.ofNat 100)]).2 = none ∧
    (processMessage (tickEntry "TSLA" 99999 0 7) []).2 = none :=
  first_observation_no_alert (tickEntry "TSLA" 99999 0 7) [("AAPL", F64.ofNat 100)]
    ⟨"TSLA", F64.ofNat 99999, 7⟩ (by decide) (by decide)

/-- C10. `processMessage` on a decoded tick with symbol `S` changes at most the
entry for `S`: every other symbol is looked up after the call as it was before
(present with the same price, or absent). -/
theorem other_symbols_untouched (message : XMessage) (lastPrices : LastPrices)
    (tick : StockPrice) (hdec : decodeEvent message = some tick)
    (other : String) (hne : other ≠ tick.Symbol) :
    LastPrices.get (processMessage message lastPrices).1 other = LastPrices.get lastPrices other := by
  rw [processMessage_of_decoded message lastPrices tick hdec]
  exact LastPrices.get_set_ne lastPrices tick.Symbol other tick.Price hne

theorem other_symbols_untouched_witness :
    LastPrices.get (processMessage (tickEntry "TSLA" 250 0 7)
      [("AAPL", F64.ofNat 100), ("TSLA", F64.ofNat 200)]).1 "AAPL" =
    LastPrices.get [("AAPL", F64.ofNat 100), ("TSLA", F64.ofNat 200)] "AAPL" :=
  other_symbols_untouched (tickEntry "TSLA" 250 0 7)
    [("AAPL", F64.ofNat 100), ("TSLA", F64.ofNat 200)]
    ⟨"TSLA", F64.ofNat 250, 7⟩ (by decide) "AAPL" (by decide)

/-- C4. For a malformed stream entry (no `event` field, an `event` value that is
not a string, or a string that fails to decode) `processMessage` returns with
the table unchanged and without a spike alert, and a well-formed entry processed
afterwards gets the same record and leaves the same table as if the malformed
entry had never been processed. -/
theorem malformed_entry_skipped (bad next : XMessage) (lastPrices : LastPrices)
    (hbad : lookupValue bad.Values "event" = none ∨
      (∃ goType, lookupValue bad.Values "event" = some (.other goType)) ∨
      (∃ dataStr, lookupValue bad.Values "event" = some (.str dataStr) ∧
        unmarshal dataStr = none)) :
    (processMessage bad lastPrices).1 = lastPrices ∧
    (∀ symbol pct old new,
      (processMessage bad lastPrices).2 ≠ some (.spike symbol pct old new)) ∧
    processMessage next (processMessage bad lastPrices).1 = processMessage next lastPrices ∧
    (processAll [bad, next] lastPrices).1 = (processAll [next] lastPrices).1 ∧
    (processAll [bad, next] lastPrices).2 =
      (processMessage bad lastPrices).2 :: (processAll [next] lastPrices).2 := by
  have hdec : decodeEvent bad = none := by
    unfold decodeEvent
    rcases hbad with h | ⟨ty, h⟩ | ⟨d, h, hu⟩
    · simp [h]
    · simp [h]
    · simp [h, hu]
  obtain ⟨htable, hrec⟩ := processMessage_of_undecoded bad lastPrices hdec
  refine ⟨htable, ?_, ?_, ?_, ?_⟩
  · intro symbol pct old new
    rcases hrec with h | ⟨ty, h⟩ | h <;> simp [h]
  · rw [htable]
  · simp [processAll, htable]
  · simp [processAll, htable]

theorem malformed_entry_skipped_witness :
    (processMessage ⟨"0-1", [("event", .str .invalid)]⟩ [("AAPL", F64.ofNat 100)]).1 =
      [("AAPL", F64.ofNat 100)] ∧
    (processAll [⟨"0-1", [("event", .str .invalid)]⟩, tickEntry "AAPL" 110 0 7]
      [("AAPL", F64.ofNat 100)]).1 =
      (processAll [tickEntry "AAPL" 110 0 7] [("AAPL", F64.ofNat 100)]).1 :=
  have h := malformed_entry_skipped ⟨"0-1", [("event", .str .invalid)]⟩
    (tickEntry "AAPL" 110 0 7) [("AAPL", F64.ofNat 100)]
    (Or.inr (Or.inr ⟨.invalid, rfl, rfl⟩))
  ⟨h.1, h.2.2.2.1⟩

/-- C7, as the code behaves. With a prior price of exactly zero for the tick's
symbol, `processMessage` returns and stores the new price; the tick is not
treated as a first observation. A new price that is zero or NaN is logged as
stable (the computed change is NaN, and NaN is never above the threshold), and
every other new price is logged as a spike whose change is an infinity, printed
as "+Inf%" or "-Inf%". No spike record ever shows a NaN change. -/
theorem zero_prior_price_behaviour (message : XMessage) (lastPrices : LastPrices)
    (tick : StockPrice) (s : Bool) (hdec : decodeEvent message = some tick)
    (hold : LastPrices.get lastPrices tick.Symbol = some (F64.fin s 0)) :
    LastPrices.get (processMessage message lastPrices).1 tick.Symbol = some tick.Price ∧
    ((tick.Price = F64.nan ∨ ∃ u, tick.Price = F64.fin u 0) →
      (processMessage message lastPrices).2 = some (.stable tick.Symbol tick.Price)) ∧
    ((tick.Price ≠ F64.nan ∧ ∀ u, tick.Price ≠ F64.fin u 0) →
      (processMessage message lastPrices).2 =
          some (.spike tick.Symbol "+Inf%" (F64.fin s 0) tick.Price) ∨
      (processMessage message lastPrices).2 =
          some (.spike tick.Symbol "-Inf%" (F64.fin s 0) tick.Price)) ∧
    (∀ symbol old new,
      (processMessage message lastPrices).2 ≠ some (.spike symbol "NaN%" old new)) := by
  have hstable : (tick.Price = F64.nan ∨ ∃ u, tick.Price = F64.fin u 0) →
      (processMessage message lastPrices).2 = some (.stable tick.Symbol tick.Price) := by
    intro hz
    rw [processMessage_of_decoded message lastPrices tick hdec]
    simp only [hold, (F64.change_of_zero_prior tick.Price s).1 hz]
    rfl
  have hspike : (tick.Price ≠ F64.nan ∧ ∀ u, tick.Price ≠ F64.fin u 0) →
      (processMessage message lastPrices).2 =
          some (.spike tick.Symbol "+Inf%" (F64.fin s 0) tick.Price) ∨
      (processMessage message lastPrices).2 =
          some (.spike tick.Symbol "-Inf%" (F64.fin s 0) tick.Price) := by
    intro hnz
    obtain ⟨v, hv⟩ := (F64.change_of_zero_prior tick.Price s).2 hnz
    rw [processMessage_of_decoded message lastPrices tick hdec]
    simp only [hold, hv]
    have hgt : F64.gt (F64.abs (F64.inf v)) threshold = true := by
      have : threshold = F64.fin false (0x1999999999999A * 2 ^ 1017) := F64.threshold_value
      rw [this]
      rfl
    have hmul : F64.mul (F64.inf v) (F64.ofNat 100) = F64.inf v := by
      rw [F64.ofNat_small 100 (by decide)]
      have : 100 * F64.unit ≠ 0 := by have := F64.unit_pos; omega
      simp [F64.mul, this]
    simp only [hgt, if_true, hmul]
    cases v
    · left; rfl
    · right; rfl
  refine ⟨?_, hstable, hspike, ?_⟩
  · rw [processMessage_of_decoded message lastPrices tick hdec]
    exact LastPrices.get_set_self lastPrices tick.Symbol tick.Price
  · intro symbol old new
    by_cases hz : tick.Price = F64.nan ∨ ∃ u, tick.Price = F64.fin u 0
    · rw [hstable hz]
      simp
    · have hnz : tick.Price ≠ F64.nan ∧ ∀ u, tick.Price ≠ F64.fin u 0 := by
        constructor
        · intro h; exact hz (Or.inl h)
        · intro u h; exact hz (Or.inr ⟨u, h⟩)
      rcases hspike hnz with h | h <;> rw [h] <;> simp

theorem zero_prior_price_behaviour_witness :
    (processMessage (tickEntry "AAPL" 0 0 7) [("AAPL", F64.fin false 0)]).2 =
      some (.stable "AAPL" (F64.fin false 0)) :=
  (zero_prior_price_behaviour (tickEntry "AAPL" 0 0 7) [("AAPL", F64.fin false 0)]
    ⟨"AAPL", F64.fin false 0, 7⟩ false (by decide) (by decide)).2.1 (Or.inr ⟨false, rfl⟩)

/-- C7 fails as stated: with the prior price of "AAPL" at zero, the tick
"AAPL" at 5 is logged as a spike whose change is +Inf, while the same tick on a
table without "AAPL" logs nothing. -/
theorem zero_prior_price_gives_infinite_spike :
    processMessage (tickEntry "AAPL" 5 0 7) [("AAPL", F64.fin false 0)] =
      ([("AAPL", F64.ofNat 5)],
       some (.spike "AAPL" "+Inf%" (F64.fin false 0) (F64.ofNat 5))) ∧
    F64.div (F64.sub (F64.ofNat 5) (F64.fin false 0)) (F64.fin false 0) = F64.inf false ∧
    (processMessage (tickEntry "AAPL" 5 0 7) []).2 = none := by
  refine ⟨by decide, by decide, by decide⟩

/-- C9, as the code behaves. For every index draw `i` in `[0, 5)` and every draw
`r` with `0 <= r < 1`, the ingester builds a tick (the index is in bounds) whose
symbol is one of AAPL, TSLA, NVDA, MSFT, GOOGL and whose price `100 + r*500`
satisfies `100 <= price <= 600`, hence `price > 0`; the same holds when the
product and the sum are fused into one operation. -/
theorem generated_tick_bounds (i : Nat) (r : F64) (now : Int) (hi : i < 5)
    (h0 : F64.le (F64.ofNat 0) r = true) (h1 : F64.lt r (F64.ofNat 1) = true) :
    ∃ symbol price fused,
      priceUpdate i r now = some ⟨symbol, price, now⟩ ∧
      priceUpdateFused i r now = some ⟨symbol, fused, now⟩ ∧
      stocks[i]? = some symbol ∧
      symbol ∈ ["AAPL", "TSLA", "NVDA", "MSFT", "GOOGL"] ∧
      price = F64.add (F64.ofNat 100) (F64.mul r (F64.ofNat 500)) ∧
      F64.le (F64.ofNat 100) price = true ∧ F64.le price (F64.ofNat 600) = true ∧
      F64.lt (F64.ofNat 0) price = true ∧
      F64.le (F64.ofNat 100) fused = true ∧ F64.le fused (F64.ofNat 600) = true ∧
      F64.lt (F64.ofNat 0) fused = true := by
  obtain ⟨q, hq, hq1, hq2⟩ := F64.price_between r h0 h1
  obtain ⟨f, hf, hf1, hf2⟩ := F64.fused_price_between r h0 h1
  have hsym : ∃ symbol, stocks[i]? = some symbol ∧
      symbol ∈ ["AAPL", "TSLA", "NVDA", "MSFT", "GOOGL"] := by
    interval_cases i <;> simp [stocks]
  obtain ⟨symbol, hs, hmem⟩ := hsym
  have hbounds : ∀ k, 100 * F64.unit ≤ k → k ≤ 600 * F64.unit →
      F64.le (F64.ofNat 100) (F64.fin false k) = true ∧
      F64.le (F64.fin false k) (F64.ofNat 600) = true ∧
      F64.lt (F64.ofNat 0) (F64.fin false k) = true := by
    intro k hk1 hk2
    rw [F64.ofNat_small 100 (by decide), F64.ofNat_small 600 (by decide),
      F64.ofNat_small 0 (by decide)]
    have := F64.unit_pos
    simp only [F64.le, F64.lt, F64.signed, decide_eq_true_eq]
    simp only [Bool.false_eq_true, if_false]
    refine ⟨by exact_mod_cast hk1, by exact_mod_cast hk2, ?_⟩
    have : 0 * F64.unit < k := by omega
    exact_mod_cast this
  refine ⟨symbol, F64.fin false q, F64.fin false f, ?_, ?_, hs, hmem, hq.symm,
    (hbounds q hq1 hq2).1, (hbounds q hq1 hq2).2.1, (hbounds q hq1 hq2).2.2,
    (hbounds f hf1 hf2).1, (hbounds f hf1 hf2).2.1, (hbounds f hf1 hf2).2.2⟩
  · simp only [priceUpdate, hs, hq]
  · simp only [priceUpdateFused, hs, hf]

theorem generated_tick_bounds_witness :
    ∃ symbol price fused,
      priceUpdate 2 (F64.fin false (2 ^ 1073)) 1700000000 = some ⟨symbol, price, 1700000000⟩ ∧
      priceUpdateFused 2 (F64.fin false (2 ^ 1073)) 1700000000 =
        some ⟨symbol, fused, 1700000000⟩ ∧
      stocks[2]? = some symbol ∧
      symbol ∈ ["AAPL", "TSLA", "NVDA", "MSFT", "GOOGL"] ∧
      price = F64.add (F64.ofNat 100) (F64.mul (F64.fin false (2 ^ 1073)) (F64.ofNat 500)) ∧
      F64.le (F64.ofNat 100) price = true ∧ F64.le price (F64.ofNat 600) = true ∧
      F64.lt (F64.ofNat 0) price = true ∧
      F64.le (F64.ofNat 100) fused = true ∧ F64.le fused (F64.ofNat 600) = true ∧
      F64.lt (F64.ofNat 0) fused = true :=
  generated_tick_bounds 2 (F64.fin false (2 ^ 1073)) 1700000000 (by decide) (by decide)
    (by decide)

/-- C9 fails as stated: the draw `r = 1 - 2^-53`, the largest double below 1,
lies in `[0, 1)` and gives the price exactly 600 (the sum `100 + r*500` lies
halfway between two doubles and rounds to the even one), whether or not the
operations are fused; so `price < 600` does not hold for it. -/
theorem generated_price_reaches_600 :
    F64.le (F64.ofNat 0) (F64.fin false ((2 ^ 53 - 1) * 2 ^ 1021)) = true ∧
    F64.lt (F64.fin false ((2 ^ 53 - 1) * 2 ^ 1021)) (F64.ofNat 1) = true ∧
    priceUpdate 0 (F64.fin false ((2 ^ 53 - 1) * 2 ^ 1021)) 0 =
      some ⟨"AAPL", F64.ofNat 600, 0⟩ ∧
    priceUpdateFused 0 (F64.fin false ((2 ^ 53 - 1) * 2 ^ 1021)) 0 =
      some ⟨"AAPL", F64.ofNat 600, 0⟩ ∧
    F64.lt (F64.ofNat 600) (F64.ofNat 600) = false := by
  refine ⟨by decide, by decide, by decide, by decide, by decide⟩

end StockGo
